import Mathlib

/-!
A shallow embedding of the benten text-indexing and ingestion pipeline
(`src/index.go`, `src/cmd/syncer/main.go`, `src/cmd/gae/main.go`).

Strings are modelled as lists of naturals: lists of Unicode code points
before UTF-8 encoding, lists of bytes afterwards.  The Google Cloud
Datastore is modelled as an explicit state (a list of Piece records and a
list of PieceIndex records); each committed transaction is one state
transition, so the observable states are exactly the states between
commits.
-/

set_option maxRecDepth 4000

namespace Benten

/-- Modelled from the spec: gram width constant `A = 4` (§4.2, §6) from the
`benten` package root, which is not under `src/` (only `index.go` is). -/
def GramSizeForAscii : Nat := 4

/-- Modelled from the spec: gram width constant `N = 6` (§4.2, §6) from the
`benten` package root, which is not under `src/`. -/
def GramSizeForNonAscii : Nat := 6

/-- Model of the `golang.org/x/text/unicode/norm` NFKD transform used by
`Normalize` in `src/index.go`, per code point, restricted to an explicit
finite table (Latin-1 precomposed letters, the ĲĲ compatibility ligature and
Ÿ); identity elsewhere.  Canonical reordering of multiple combining marks is
not modelled. -/
def nfkdChar (c : Nat) : List Nat :=
  if c = 0xC0 then [65, 0x300]
  else if c = 0xC1 then [65, 0x301]
  else if c = 0xC2 then [65, 0x302]
  else if c = 0xC3 then [65, 0x303]
  else if c = 0xC4 then [65, 0x308]
  else if c = 0xC5 then [65, 0x30A]
  else if c = 0xC7 then [67, 0x327]
  else if c = 0xC8 then [69, 0x300]
  else if c = 0xC9 then [69, 0x301]
  else if c = 0xCA then [69, 0x302]
  else if c = 0xCB then [69, 0x308]
  else if c = 0xCC then [73, 0x300]
  else if c = 0xCD then [73, 0x301]
  else if c = 0xCE then [73, 0x302]
  else if c = 0xCF then [73, 0x308]
  else if c = 0xD1 then [78, 0x303]
  else if c = 0xD2 then [79, 0x300]
  else if c = 0xD3 then [79, 0x301]
  else if c = 0xD4 then [79, 0x302]
  else if c = 0xD5 then [79, 0x303]
  else if c = 0xD6 then [79, 0x308]
  else if c = 0xD9 then [85, 0x300]
  else if c = 0xDA then [85, 0x301]
  else if c = 0xDB then [85, 0x302]
  else if c = 0xDC then [85, 0x308]
  else if c = 0xDD then [89, 0x301]
  else if c = 0xE0 then [97, 0x300]
  else if c = 0xE1 then [97, 0x301]
  else if c = 0xE2 then [97, 0x302]
  else if c = 0xE3 then [97, 0x303]
  else if c = 0xE4 then [97, 0x308]
  else if c = 0xE5 then [97, 0x30A]
  else if c = 0xE7 then [99, 0x327]
  else if c = 0xE8 then [101, 0x300]
  else if c = 0xE9 then [101, 0x301]
  else if c = 0xEA then [101, 0x302]
  else if c = 0xEB then [101, 0x308]
  else if c = 0xEC then [105, 0x300]
  else if c = 0xED then [105, 0x301]
  else if c = 0xEE then [105, 0x302]
  else if c = 0xEF then [105, 0x308]
  else if c = 0xF1 then [110, 0x303]
  else if c = 0xF2 then [111, 0x300]
  else if c = 0xF3 then [111, 0x301]
  else if c = 0xF4 then [111, 0x302]
  else if c = 0xF5 then [111, 0x303]
  else if c = 0xF6 then [111, 0x308]
  else if c = 0xF9 then [117, 0x300]
  else if c = 0xFA then [117, 0x301]
  else if c = 0xFB then [117, 0x302]
  else if c = 0xFC then [117, 0x308]
  else if c = 0xFD then [121, 0x301]
  else if c = 0xFF then [121, 0x308]
  else if c = 0x132 then [73, 74]
  else if c = 0x133 then [105, 106]
  else if c = 0x178 then [89, 0x308]
  else [c]

/-- Model of Go `strings.ToLower` (simple per-rune case mapping), restricted
to ASCII, Latin-1, Ĳ, Œ, Ÿ and Greek capital sigma; identity elsewhere. -/
def lowerChar (c : Nat) : Nat :=
  if 65 ≤ c ∧ c ≤ 90 then c + 32
  else if 0xC0 ≤ c ∧ c ≤ 0xDE ∧ c ≠ 0xD7 then c + 32
  else if c = 0x132 then 0x133
  else if c = 0x152 then 0x153
  else if c = 0x178 then 0xFF
  else if c = 0x3A3 then 0x3C3
  else c

/-- Model of Go `strings.ToUpper` (simple per-rune case mapping), restricted
to the same character repertoire as `lowerChar`; identity elsewhere.  Note
that both the small and the final Greek sigma map to capital sigma, and ß has
no simple uppercase mapping. -/
def upperChar (c : Nat) : Nat :=
  if 97 ≤ c ∧ c ≤ 122 then c - 32
  else if 0xE0 ≤ c ∧ c ≤ 0xFE ∧ c ≠ 0xF7 then c - 32
  else if c = 0xFF then 0x178
  else if c = 0x133 then 0x132
  else if c = 0x153 then 0x152
  else if c = 0x3C3 then 0x3A3
  else if c = 0x3C2 then 0x3A3
  else c

/-- The `strings.NewReplacer` table of `Normalize` in `src/index.go`: the 17
standalone combining diacritical marks are deleted and the four ligatures
æ, ĳ, œ, ß are expanded.  Every pattern of the Go replacer is a single rune,
so the replacer acts per code point. -/
def replaceChar (c : Nat) : List Nat :=
  if c = 0x301 ∨ c = 0x307 ∨ c = 0x309 ∨ c = 0x300 ∨ c = 0x302 ∨ c = 0x303 ∨
     c = 0x304 ∨ c = 0x306 ∨ c = 0x308 ∨ c = 0x30A ∨ c = 0x30B ∨ c = 0x30C ∨
     c = 0x31B ∨ c = 0x323 ∨ c = 0x326 ∨ c = 0x327 ∨ c = 0x328 then []
  else if c = 0xE6 then [97, 101]
  else if c = 0x133 then [105, 106]
  else if c = 0x153 then [111, 101]
  else if c = 0xDF then [115, 115]
  else [c]

/-- Function `Normalize` from `src/index.go`:
`r.Replace(strings.ToLower(norm.NFKD.String(s)))` — NFKD decomposition, then
lower-casing, then the replacer, in that order. -/
def Normalize (s : List Nat) : List Nat :=
  ((s.flatMap nfkdChar).map lowerChar).flatMap replaceChar

/-- The action of `Normalize` on a single code point. -/
def normalizeChar (c : Nat) : List Nat :=
  ((nfkdChar c).map lowerChar).flatMap replaceChar

theorem nfkdChar_default (c : Nat) (hc : 0x400 ≤ c) : nfkdChar c = [c] := by
  unfold nfkdChar
  repeat rw [if_neg (by omega)]

theorem lowerChar_default (c : Nat) (hc : 0x400 ≤ c) : lowerChar c = c := by
  unfold lowerChar
  repeat rw [if_neg (by omega)]

theorem replaceChar_default (c : Nat) (hc : 0x400 ≤ c) : replaceChar c = [c] := by
  unfold replaceChar
  repeat rw [if_neg (by omega)]

theorem normalizeChar_stable_lt :
    ∀ c < 0x400, (normalizeChar c).flatMap normalizeChar = normalizeChar c := by
  decide

theorem normalizeChar_stable (c : Nat) :
    (normalizeChar c).flatMap normalizeChar = normalizeChar c := by
  by_cases hc : c < 0x400
  · exact normalizeChar_stable_lt c hc
  · have h1 : nfkdChar c = [c] := nfkdChar_default c (le_of_not_lt hc)
    have h2 : lowerChar c = c := lowerChar_default c (le_of_not_lt hc)
    have h3 : replaceChar c = [c] := replaceChar_default c (le_of_not_lt hc)
    simp [normalizeChar, h1, h2, h3]

theorem Normalize_eq_flatMap (s : List Nat) : Normalize s = s.flatMap normalizeChar := by
  induction s with
  | nil => rfl
  | cons c t ih =>
    simp only [Normalize, normalizeChar, List.flatMap_cons, List.map_append,
      List.flatMap_append] at *
    rw [ih]

theorem Normalize_idem (s : List Nat) : Normalize (Normalize s) = Normalize s := by
  rw [Normalize_eq_flatMap, Normalize_eq_flatMap]
  induction s with
  | nil => rfl
  | cons c t ih =>
    simp only [List.flatMap_cons, List.flatMap_append, ih, normalizeChar_stable]

theorem Normalize_upper_of (s : List Nat)
    (h : ∀ c ∈ s, normalizeChar (upperChar c) = normalizeChar c) :
    Normalize (s.map upperChar) = Normalize s := by
  rw [Normalize_eq_flatMap, Normalize_eq_flatMap]
  induction s with
  | nil => rfl
  | cons c t ih =>
    simp only [List.map_cons, List.flatMap_cons]
    rw [h c (List.mem_cons_self c t), ih (fun d hd => h d (List.mem_cons_of_mem c hd))]

/-- Standard UTF-8 encoding of one code point, as Go strings store text. -/
def utf8EncodeChar (c : Nat) : List Nat :=
  if c < 0x80 then [c]
  else if c < 0x800 then [0xC0 + c / 0x40, 0x80 + c % 0x40]
  else if c < 0x10000 then
    [0xE0 + c / 0x1000, 0x80 + (c / 0x40) % 0x40, 0x80 + c % 0x40]
  else
    [0xF0 + c / 0x40000, 0x80 + (c / 0x1000) % 0x40, 0x80 + (c / 0x40) % 0x40,
     0x80 + c % 0x40]

/-- The UTF-8 byte string of a list of code points. -/
def utf8Str (s : List Nat) : List Nat := s.flatMap utf8EncodeChar

/-- The Go slice expression `text[i : i+j]` on a byte string. -/
def sliceBytes (t : List Nat) (i j : Nat) : List Nat := (t.drop i).take j

/-- The inner loop of `generateWordsForIndexInternal` (`src/cmd/syncer/main.go`):
`for j := 0; j <= 6; j++`, emitting `text[i:i+j]` at the first of `j = 4` with
all bytes so far ASCII, or `j = 6`; breaking with no emission when `i+j`
reaches the end of the text.  The fuel argument is the remaining number of
loop iterations (`7` at `j = 0`). -/
def scanFrom (text : List Nat) (i : Nat) : Nat → Nat → Bool → Option (List Nat)
  | 0, _, _ => none
  | fuel + 1, j, isASCII =>
    if (j = GramSizeForAscii ∧ isASCII = true) ∨ j = GramSizeForNonAscii then
      some (sliceBytes text i j)
    else if i + j = text.length then none
    else
      scanFrom text i fuel (j + 1) (isASCII && decide (text.getD (i + j) 0 ≤ 127))

/-- Function `generateWordsForIndexInternal` from `src/cmd/syncer/main.go`, returning the
emitted grams in start-offset order (the Go code inserts them into a
deduplicating `map[string]struct{}`; duplicates are collapsed with `dedup`
where a claim talks about the gram set). -/
def generateWordsForIndexInternal (text : List Nat) : List (List Nat) :=
  if text.length < GramSizeForAscii then []
  else
    (List.range (text.length - GramSizeForAscii + 1)).filterMap
      (fun i => scanFrom text i 7 0 true)

/-- Function `generateWordsForIndex` from `src/cmd/syncer/main.go`: normalize, then
tokenize the UTF-8 bytes of the result. -/
def generateWordsForIndex (text : List Nat) : List (List Nat) :=
  generateWordsForIndexInternal (utf8Str (Normalize text))

theorem scanFrom_char (t : List Nat) (i : Nat) (h4 : i + 4 ≤ t.length) :
    scanFrom t i 7 0 true =
      if t.getD i 0 ≤ 127 ∧ t.getD (i + 1) 0 ≤ 127 ∧
         t.getD (i + 2) 0 ≤ 127 ∧ t.getD (i + 3) 0 ≤ 127 then
        some (sliceBytes t i 4)
      else if i + 6 ≤ t.length then some (sliceBytes t i 6)
      else none := by
  have e0 : ¬ (i = t.length) := by omega
  have e1 : ¬ (i + 1 = t.length) := by omega
  have e2 : ¬ (i + 2 = t.length) := by omega
  have e3 : ¬ (i + 3 = t.length) := by omega
  simp only [List.getD_eq_getElem?_getD]
  by_cases a0 : t[i]?.getD 0 ≤ 127
  · by_cases a1 : t[i + 1]?.getD 0 ≤ 127
    · by_cases a2 : t[i + 2]?.getD 0 ≤ 127
      · by_cases a3 : t[i + 3]?.getD 0 ≤ 127
        · rw [if_pos ⟨a0, a1, a2, a3⟩]
          simp [scanFrom, GramSizeForAscii, GramSizeForNonAscii,
            e0, e1, e2, e3, a0, a1, a2, a3]
        · rw [if_neg (by tauto)]
          simp [scanFrom, GramSizeForAscii, GramSizeForNonAscii,
            e0, e1, e2, e3, a0, a1, a2, a3]
          split_ifs <;> first | rfl | omega
      · rw [if_neg (by tauto)]
        simp [scanFrom, GramSizeForAscii, GramSizeForNonAscii,
          e0, e1, e2, e3, a0, a1, a2]
        split_ifs <;> first | rfl | omega
    · rw [if_neg (by tauto)]
      simp [scanFrom, GramSizeForAscii, GramSizeForNonAscii,
        e0, e1, e2, e3, a0, a1]
      split_ifs <;> first | rfl | omega
  · rw [if_neg (by tauto)]
    simp [scanFrom, GramSizeForAscii, GramSizeForNonAscii,
      e0, e1, e2, e3, a0]
    split_ifs <;> first | rfl | omega

/-- A value stored in a Datastore property: either a plain integer or an
entity key.  An equality filter between values of different kinds matches
nothing. -/
inductive DSVal where
  | int (i : Nat)
  | key (k : Nat)
deriving DecidableEq

/-- Modelled from the spec: the `benten.Metadata` Piece record (§3), whose
declaration is not under `src/`; only the fields the claims depend on are
included (the five searchable tag fields, the content `Hash`, the
object-store `Picture` reference and the `Path`).  Text fields are lists of
code points. -/
structure Metadata where
  Title : List Nat
  Album : List Nat
  Artist : List Nat
  AlbumArtist : List Nat
  Composer : List Nat
  Hash : Nat
  Picture : List Nat
  Path : List Nat
deriving DecidableEq

/-- Modelled from the spec: the `benten.PieceIndex` IndexEntry record (§3):
a gram (byte string `Key`) pointing at a Piece identity (`Value`). -/
structure PieceIndex where
  Key : List Nat
  Value : DSVal
deriving DecidableEq

/-- The document store: Piece records under their integer key ids, plus the
IndexEntry records. -/
structure DSState where
  pieces : List (Nat × Metadata)
  index : List PieceIndex
deriving DecidableEq

/-- Function `deleteMatchedPieces` from `src/cmd/syncer/main.go`: every key produced by
the Piece query is deleted inside the transaction and collected. -/
def deleteMatchedPieces (matched : List (Nat × Metadata)) : List Nat :=
  matched.map Prod.fst

/-- Function `deleteIndexFor` from `src/cmd/syncer/main.go`.  The Go loop
`for key := range keys` iterates over the *indices* of the slice (the ints
`0 .. len(keys)-1`), not over its elements, so the transactional query
`Filter("Value =", key)` compares the key-valued `Value` property with an
int.  A Datastore equality filter between a key property and an integer
matches no entity; the model reflects the comparison as
`e.Value = DSVal.int i`. -/
def deleteIndexFor (index : List PieceIndex) (keys : List Nat) : List PieceIndex :=
  (List.range keys.length).foldl
    (fun idx i => idx.filter (fun e => e.Value ≠ DSVal.int i)) index

/-- The words map built by `spanPieceIndex` (`src/cmd/syncer/main.go`): the
union of the grams of the five lower-cased searchable fields (the Go
`map[string]struct{}` deduplicates). -/
def pieceWords (m : Metadata) : List (List Nat) :=
  (generateWordsForIndex (m.Title.map lowerChar) ++
   generateWordsForIndex (m.Album.map lowerChar) ++
   generateWordsForIndex (m.Artist.map lowerChar) ++
   generateWordsForIndex (m.AlbumArtist.map lowerChar) ++
   generateWordsForIndex (m.Composer.map lowerChar)).dedup

/-- Function `spanPieceIndex` from `src/cmd/syncer/main.go`: in a transaction of its
own — opened only after `updateMetadata`'s transaction has committed, since
it needs the key id the first commit allocated — insert one `PieceIndex` per
word, each pointing at the new Piece's key. -/
def spanPieceIndex (s : DSState) (m : Metadata) (key : Nat) : DSState :=
  { s with index := s.index ++ (pieceWords m).map (fun w => ⟨w, DSVal.key key⟩) }

/-- The `deletedPieces` accumulator of `updateMetadata`
(`src/cmd/syncer/main.go`): keys of the Pieces matched by the same-`Hash`
query followed by those matched by the same-`Path` query (both queries read
the pre-transaction snapshot; a Piece matching both appears twice, which is
harmless). -/
def deletedPieces (s : DSState) (m : Metadata) : List Nat :=
  deleteMatchedPieces (s.pieces.filter (fun km => km.2.Hash = m.Hash)) ++
  deleteMatchedPieces (s.pieces.filter (fun km => km.2.Path = m.Path))

/-- The transaction body of `updateMetadata` (`src/cmd/syncer/main.go`):
delete the Pieces with the same `Hash`, delete the Pieces with the same
`Path`, run `deleteIndexFor` over the collected keys, and put the new Piece
under the fresh id `newKey` (allocated for the `IncompleteKey` at commit).
All effects become visible atomically at commit. -/
def updateMetadataTxn (s : DSState) (m : Metadata) (newKey : Nat) : DSState :=
  { pieces := (s.pieces.filter (fun km => ¬ km.1 ∈ deletedPieces s m)) ++ [(newKey, m)],
    index := deleteIndexFor s.index (deletedPieces s m) }

/-- Function `updateMetadata` followed by the `spanPieceIndex` call it makes after its
own commit: two transactions, hence two observable committed states — the
intermediate one and the final one. -/
def updateMetadata (s : DSState) (m : Metadata) (newKey : Nat) : DSState × DSState :=
  let mid := updateMetadataTxn s m newKey
  (mid, spanPieceIndex mid m newKey)

theorem deleteIndexFor_mem {e : PieceIndex} :
    ∀ (keys : List Nat) (index : List PieceIndex),
      e ∈ deleteIndexFor index keys → e ∈ index := by
  intro keys
  unfold deleteIndexFor
  generalize List.range keys.length = l
  induction l with
  | nil => intro index h; exact h
  | cons a l ih =>
    intro index h
    have := ih _ h
    exact (List.mem_filter.mp this).1

theorem updateMetadataTxn_path (s : DSState) (m : Metadata) (newKey : Nat) :
    ∀ km ∈ (updateMetadataTxn s m newKey).pieces, km.2.Path = m.Path → km = (newKey, m) := by
  intro km hm hpath
  simp only [updateMetadataTxn, List.mem_append, List.mem_singleton] at hm
  rcases hm with hm | hm
  · exfalso
    rw [List.mem_filter] at hm
    rcases hm with ⟨h1, h2⟩
    apply of_decide_eq_true h2
    simp only [deletedPieces, deleteMatchedPieces, List.mem_append]
    right
    exact List.mem_map_of_mem Prod.fst (List.mem_filter.mpr ⟨h1, by simp [hpath]⟩)
  · exact hm

theorem updateMetadataTxn_index_fresh (s : DSState) (m : Metadata) (newKey : Nat)
    (hfresh : ∀ e ∈ s.index, e.Value ≠ DSVal.key newKey) :
    (updateMetadataTxn s m newKey).index.filter
      (fun e => e.Value = DSVal.key newKey) = [] := by
  rw [List.filter_eq_nil_iff]
  intro e he
  simp only [updateMetadataTxn] at he
  simp [hfresh e (deleteIndexFor_mem _ _ he)]

/-- C1 (amended): `updateMetadata`'s single transaction deletes the old
Pieces for the `Hash` and the `Path` and inserts the new Piece, so neither
committed state contains an old Piece for the path alongside the new one,
and once `spanPieceIndex`'s transaction also commits the new Piece carries
exactly its gram set; but the IndexEntries are inserted by that second,
separate transaction, so the intermediate committed state already shows the
new Piece with no IndexEntry for it. -/
theorem updateMetadata_path_atomicity (s : DSState) (m : Metadata) (newKey : Nat)
    (hfresh : ∀ e ∈ s.index, e.Value ≠ DSVal.key newKey) :
    (∀ km ∈ ((updateMetadata s m newKey).1).pieces, km.2.Path = m.Path → km = (newKey, m)) ∧
    (∀ km ∈ ((updateMetadata s m newKey).2).pieces, km.2.Path = m.Path → km = (newKey, m)) ∧
    (newKey, m) ∈ ((updateMetadata s m newKey).1).pieces ∧
    ((updateMetadata s m newKey).1).index.filter (fun e => e.Value = DSVal.key newKey) = [] ∧
    ((((updateMetadata s m newKey).2).index.filter
        (fun e => e.Value = DSVal.key newKey)).map PieceIndex.Key = pieceWords m) := by
  refine ⟨updateMetadataTxn_path s m newKey, ?_, ?_,
    updateMetadataTxn_index_fresh s m newKey hfresh, ?_⟩
  · intro km hm hpath
    refine updateMetadataTxn_path s m newKey km ?_ hpath
    simpa [updateMetadata, spanPieceIndex] using hm
  · simp [updateMetadata, updateMetadataTxn]
  · simp only [updateMetadata, spanPieceIndex, List.filter_append]
    rw [updateMetadataTxn_index_fresh s m newKey hfresh]
    simp [List.filter_map, Function.comp_def]

/-- C1 counterexample: from an empty store, the intermediate committed state
of `updateMetadata` contains the new Piece while its gram set is non-empty
and the index holds no entry for it — the Piece and its IndexEntries are not
inserted within one and the same transaction, and a query at this point
observes the new Piece without its gram index. -/
theorem updateMetadata_not_single_txn :
    (5, ⟨[97, 98, 99, 100], [], [], [], [], 1, [], [112]⟩) ∈
      ((updateMetadata ⟨[], []⟩ ⟨[97, 98, 99, 100], [], [], [], [], 1, [], [112]⟩ 5).1).pieces ∧
    pieceWords ⟨[97, 98, 99, 100], [], [], [], [], 1, [], [112]⟩ ≠ [] ∧
    ((updateMetadata ⟨[], []⟩ ⟨[97, 98, 99, 100], [], [], [], [], 1, [], [112]⟩ 5).1).index.filter
      (fun e => e.Value = DSVal.key 5) = [] := by
  decide

/-- C1 witness: the amended theorem applied to a concrete store and Piece. -/
theorem updateMetadata_path_atomicity_witness :
    (∀ km ∈ ((updateMetadata ⟨[], []⟩ ⟨[97, 98, 99, 100], [], [], [], [], 1, [], [112]⟩ 5).2).pieces,
      km.2.Path = [112] → km = (5, ⟨[97, 98, 99, 100], [], [], [], [], 1, [], [112]⟩)) ∧
    ((((updateMetadata ⟨[], []⟩ ⟨[97, 98, 99, 100], [], [], [], [], 1, [], [112]⟩ 5).2).index.filter
        (fun e => e.Value = DSVal.key 5)).map PieceIndex.Key =
      pieceWords ⟨[97, 98, 99, 100], [], [], [], [], 1, [], [112]⟩) := by
  have h := updateMetadata_path_atomicity ⟨[], []⟩
    ⟨[97, 98, 99, 100], [], [], [], [], 1, [], [112]⟩ 5 (by decide)
  exact ⟨h.2.1, h.2.2.2.2⟩

/-- C2: `deleteIndexFor` iterates over the indices of the key slice, so the
IndexEntry referencing the retired Piece 7 survives both commits even though
Piece 7 itself is deleted by the replacement transaction — a stale entry
outlives the Piece replacement. -/
theorem deleteIndexFor_stale_survives :
    (∀ km ∈ ((updateMetadata
        ⟨[(7, ⟨[107, 101, 121, 103, 115], [], [], [], [], 1, [], [112]⟩)],
          [⟨[107, 101, 121, 103], DSVal.key 7⟩]⟩
        ⟨[110, 101, 119, 101, 114], [], [], [], [], 2, [], [112]⟩ 9).2).pieces, km.1 ≠ 7) ∧
    (⟨[107, 101, 121, 103], DSVal.key 7⟩ : PieceIndex) ∈
      ((updateMetadata
        ⟨[(7, ⟨[107, 101, 121, 103, 115], [], [], [], [], 1, [], [112]⟩)],
          [⟨[107, 101, 121, 103], DSVal.key 7⟩]⟩
        ⟨[110, 101, 119, 101, 114], [], [], [], [], 2, [], [112]⟩ 9).2).index := by
  decide

/-- C9: every gram emitted by `generateWordsForIndexInternal` is an
in-bounds contiguous byte slice `text[i : i+j]` with `i + j ≤ len(text)`
and length exactly `j`, where `j` is 4 — emitted only when bytes
`i .. i+3` are all ASCII — or 6, never any other value. -/
theorem generateWords_slices_inbounds (text : List Nat) (g : List Nat)
    (hg : g ∈ generateWordsForIndexInternal text) :
    ∃ i j, g = sliceBytes text i j ∧ g.length = j ∧ i + j ≤ text.length ∧
      ((j = 4 ∧ ∀ k < 4, text.getD (i + k) 0 ≤ 127) ∨ j = 6) := by
  unfold generateWordsForIndexInternal at hg
  rw [show GramSizeForAscii = 4 from rfl] at hg
  by_cases hlen : text.length < 4
  · rw [if_pos hlen] at hg
    cases hg
  · rw [if_neg hlen] at hg
    rw [List.mem_filterMap] at hg
    obtain ⟨i, hi, hscan⟩ := hg
    rw [List.mem_range] at hi
    have h4 : i + 4 ≤ text.length := by omega
    rw [scanFrom_char text i h4] at hscan
    split_ifs at hscan with hascii h6
    · refine ⟨i, 4, (Option.some_inj.mp hscan).symm, ?_, h4, Or.inl ⟨rfl, ?_⟩⟩
      · rw [← Option.some_inj.mp hscan]
        simp [sliceBytes]
        omega
      · intro k hk
        interval_cases k
        · simpa using hascii.1
        · exact hascii.2.1
        · exact hascii.2.2.1
        · exact hascii.2.2.2
    · refine ⟨i, 6, (Option.some_inj.mp hscan).symm, ?_, h6, Or.inr rfl⟩
      rw [← Option.some_inj.mp hscan]
      simp [sliceBytes]
      omega

/-- C9 witness: the soundness theorem applied to the gram "abcd" emitted for
the text "abcd". -/
theorem generateWords_slices_inbounds_witness :
    ∃ i j, [97, 98, 99, 100] = sliceBytes [97, 98, 99, 100] i j ∧
      ([97, 98, 99, 100] : List Nat).length = j ∧ i + j ≤ ([97, 98, 99, 100] : List Nat).length ∧
      ((j = 4 ∧ ∀ k < 4, ([97, 98, 99, 100] : List Nat).getD (i + k) 0 ≤ 127) ∨ j = 6) :=
  generateWords_slices_inbounds [97, 98, 99, 100] [97, 98, 99, 100] (by decide)

/-- C7 (amended): for a 12-byte text of four 3-byte-per-character symbols
(all bytes non-ASCII), `tokenize` yields the 6-byte gram at every byte
offset 0..6 — seven sliding byte grams, including the four that are not
character-aligned, not only the three character-aligned 2-character grams. -/
theorem generateWords_wide_grams (text : List Nat)
    (hlen : text.length = 12) (hwide : ∀ b ∈ text, 127 < b) :
    generateWordsForIndexInternal text =
      [sliceBytes text 0 6, sliceBytes text 1 6, sliceBytes text 2 6,
       sliceBytes text 3 6, sliceBytes text 4 6, sliceBytes text 5 6,
       sliceBytes text 6 6] := by
  have hbyte : ∀ k, k < text.length → ¬ (text.getD k 0 ≤ 127) := by
    intro k hk
    rw [List.getD_eq_getElem text 0 hk]
    exact not_le.mpr (hwide _ (text.getElem_mem hk))
  have hscan : ∀ i, i + 4 ≤ text.length →
      scanFrom text i 7 0 true =
        if i + 6 ≤ text.length then some (sliceBytes text i 6) else none := by
    intro i h4
    rw [scanFrom_char text i h4, if_neg (fun h => hbyte i (by omega) h.1)]
  have h0 := hscan 0 (by omega); rw [if_pos (by omega)] at h0
  have h1 := hscan 1 (by omega); rw [if_pos (by omega)] at h1
  have h2 := hscan 2 (by omega); rw [if_pos (by omega)] at h2
  have h3 := hscan 3 (by omega); rw [if_pos (by omega)] at h3
  have h4 := hscan 4 (by omega); rw [if_pos (by omega)] at h4
  have h5 := hscan 5 (by omega); rw [if_pos (by omega)] at h5
  have h6 := hscan 6 (by omega); rw [if_pos (by omega)] at h6
  have h7 := hscan 7 (by omega); rw [if_neg (by omega)] at h7
  have h8 := hscan 8 (by omega); rw [if_neg (by omega)] at h8
  unfold generateWordsForIndexInternal
  rw [if_neg (by rw [show GramSizeForAscii = 4 from rfl]; omega), hlen]
  have hr : List.range (12 - GramSizeForAscii + 1) = [0, 1, 2, 3, 4, 5, 6, 7, 8] := by rfl
  rw [hr]
  simp only [List.filterMap_cons, List.filterMap_nil, h0, h1, h2, h3, h4, h5, h6, h7, h8]

/-- C7 counterexample: on the four wide characters 日本語学 (12 UTF-8 bytes)
the tokenizer emits 7 distinct grams, among them the non-character-aligned
slice at byte offset 1 — not exactly the 3 character-aligned 2-character
grams the claim asserts. -/
theorem generateWords_wide_not_three :
    ((generateWordsForIndexInternal
        [230, 151, 165, 230, 156, 172, 232, 170, 158, 229, 173, 166]).dedup).length = 7 ∧
    sliceBytes [230, 151, 165, 230, 156, 172, 232, 170, 158, 229, 173, 166] 1 6 ∈
      generateWordsForIndexInternal
        [230, 151, 165, 230, 156, 172, 232, 170, 158, 229, 173, 166] ∧
    ¬ ((7 : Nat) = 3) := by
  decide

/-- C7 witness: the amended theorem applied to the bytes of 日本語学. -/
theorem generateWords_wide_grams_witness :
    generateWordsForIndexInternal
        [230, 151, 165, 230, 156, 172, 232, 170, 158, 229, 173, 166] =
      [sliceBytes [230, 151, 165, 230, 156, 172, 232, 170, 158, 229, 173, 166] 0 6,
       sliceBytes [230, 151, 165, 230, 156, 172, 232, 170, 158, 229, 173, 166] 1 6,
       sliceBytes [230, 151, 165, 230, 156, 172, 232, 170, 158, 229, 173, 166] 2 6,
       sliceBytes [230, 151, 165, 230, 156, 172, 232, 170, 158, 229, 173, 166] 3 6,
       sliceBytes [230, 151, 165, 230, 156, 172, 232, 170, 158, 229, 173, 166] 4 6,
       sliceBytes [230, 151, 165, 230, 156, 172, 232, 170, 158, 229, 173, 166] 5 6,
       sliceBytes [230, 151, 165, 230, 156, 172, 232, 170, 158, 229, 173, 166] 6 6] :=
  generateWords_wide_grams _ (by decide) (by decide)

/-- C8 (amended): `Normalize` is idempotent on every string, and
`Normalize (upper x) = Normalize x` holds whenever every character of `x`
normalizes equally with its uppercase (true e.g. for ASCII and Latin-1
letters) — but not for every string: see the final-sigma counterexample. -/
theorem Normalize_idem_and_upper :
    (∀ s : List Nat, Normalize (Normalize s) = Normalize s) ∧
    (∀ s : List Nat, (∀ c ∈ s, normalizeChar (upperChar c) = normalizeChar c) →
      Normalize (s.map upperChar) = Normalize s) :=
  ⟨Normalize_idem, Normalize_upper_of⟩

/-- C8 counterexample: `strings.ToUpper` maps the final sigma ς to Σ, which
`Normalize` lower-cases to the ordinary σ, so
`Normalize(upper "ς") = "σ" ≠ "ς" = Normalize "ς"`. -/
theorem Normalize_upper_sigma :
    Normalize ([0x3C2].map upperChar) ≠ Normalize [0x3C2] := by decide

/-- C8 witness: the amended theorem instantiated at the string "AbÇ". -/
theorem Normalize_idem_and_upper_witness :
    Normalize (Normalize [65, 98, 0xC7]) = Normalize [65, 98, 0xC7] ∧
    Normalize ([65, 98, 0xC7].map upperChar) = Normalize [65, 98, 0xC7] :=
  ⟨Normalize_idem_and_upper.1 [65, 98, 0xC7],
   Normalize_idem_and_upper.2 [65, 98, 0xC7] (by decide)⟩

/-- The digit part of Go `strconv.Atoi`: at least one decimal digit and
nothing else. -/
def digitsToNat (s : List Nat) : Option Nat :=
  if s = [] then none
  else
    s.foldl
      (fun acc c => acc.bind
        (fun n => if 48 ≤ c ∧ c ≤ 57 then some (n * 10 + (c - 48)) else none))
      (some 0)

/-- Go `strconv.Atoi`: an optional sign followed by decimal digits; anything
else is an error.  (Int64 overflow, which Go also reports as an error, is
not modelled; in `list` every overflowing value is rejected by the range
check with the same HTTP 400 status.) -/
def atoi (s : List Nat) : Option Int :=
  match s with
  | [] => none
  | c :: rest =>
    if c = 43 then (digitsToNat rest).map (fun n => (n : Int))
    else if c = 45 then (digitsToNat rest).map (fun n => -(n : Int))
    else (digitsToNat s).map (fun n => (n : Int))

deriving instance DecidableEq for Except

/-- The limit-parsing prologue of `list` (`src/cmd/gae/main.go`): a missing
(empty) `limit` parameter leaves the default of 10; otherwise the value must
parse as an integer and lie in `[0, 1000*1000]`, else the request is
rejected with HTTP 400 before anything else is looked at. -/
def parseLimit (limitString : List Nat) : Except Nat Int :=
  if limitString = [] then Except.ok 10
  else
    match atoi limitString with
    | none => Except.error 400
    | some l => if l < 0 ∨ 1000 * 1000 < l then Except.error 400 else Except.ok l

/-- The search-key computation of `list` (`src/cmd/gae/main.go`), applied to
the already-normalized query bytes: reject below the ASCII gram width
(HTTP 400 "too small"); take the first 4 bytes when they are all ASCII;
otherwise reject below the non-ASCII gram width (HTTP 404) or take the
first 6 bytes. -/
def listLookupKey (search : List Nat) : Except Nat (List Nat) :=
  if search.length < GramSizeForAscii then Except.error 400
  else if (List.range GramSizeForAscii).all (fun i => search.getD i 0 ≤ 127) then
    Except.ok (search.take GramSizeForAscii)
  else if search.length < GramSizeForNonAscii then Except.error 404
  else Except.ok (search.take GramSizeForNonAscii)

/-- Go `strings.Contains` on byte strings. -/
def containsBytes (s sub : List Nat) : Bool :=
  (List.range (s.length + 1)).any (fun i => sub.isPrefixOf (s.drop i))

/-- The result loop of `list` (`src/cmd/gae/main.go`): walk the index
entries in order, skip an entry whose referenced id equals the previous
one (`lastKey`), fetch the Piece — HTTP 500 when the referenced Piece does
not exist — and keep it when the normalized query is contained in one of
the four lower-cased searchable fields. -/
def collectPieces (pieces : List (Nat × Metadata)) (search : List Nat) :
    Option Nat → List PieceIndex → Except Nat (List Metadata)
  | _, [] => Except.ok []
  | lastKey, e :: rest =>
    match e.Value with
    | DSVal.int _ => Except.error 500
    | DSVal.key k =>
      if lastKey = some k then collectPieces pieces search lastKey rest
      else
        match List.lookup k pieces with
        | none => Except.error 500
        | some piece =>
          (collectPieces pieces search (some k) rest).map (fun l =>
            if containsBytes (utf8Str (piece.Title.map lowerChar)) search ||
               containsBytes (utf8Str (piece.Album.map lowerChar)) search ||
               containsBytes (utf8Str (piece.Artist.map lowerChar)) search ||
               containsBytes (utf8Str (piece.AlbumArtist.map lowerChar)) search
            then piece :: l else l)

/-- The `/api/list` handler (`src/cmd/gae/main.go`): normalize the query,
parse `limit` (default 10), compute the lookup key, read at most `limit`
IndexEntries whose `Key` equals it and post-filter.  The `Order("Value")`
of the Datastore query only affects result order and is not modelled. -/
def listHandler (phrase : List Nat) (limitString : List Nat) (s : DSState) :
    Except Nat (List Metadata) :=
  match parseLimit limitString with
  | Except.error c => Except.error c
  | Except.ok limit =>
    match listLookupKey (utf8Str (Normalize phrase)) with
    | Except.error c => Except.error c
    | Except.ok keyBytes =>
      collectPieces s.pieces (utf8Str (Normalize phrase)) none
        ((s.index.filter (fun e => e.Key = keyBytes)).take limit.toNat)

theorem listLookupKey_first_gram (search : List Nat) (key : List Nat)
    (h : listLookupKey search = Except.ok key) :
    scanFrom search 0 7 0 true = some key := by
  unfold listLookupKey at h
  rw [show GramSizeForAscii = 4 from rfl, show GramSizeForNonAscii = 6 from rfl] at h
  by_cases hlen : search.length < 4
  · rw [if_pos hlen] at h; cases h
  · rw [if_neg hlen] at h
    have h4 : 0 + 4 ≤ search.length := by omega
    rw [scanFrom_char search 0 h4]
    have hr4 : List.range 4 = [0, 1, 2, 3] := rfl
    by_cases a : search.getD 0 0 ≤ 127 ∧ search.getD 1 0 ≤ 127 ∧
        search.getD 2 0 ≤ 127 ∧ search.getD 3 0 ≤ 127
    · have hall : (List.range 4).all (fun i => search.getD i 0 ≤ 127) = true := by
        rw [hr4]
        simp only [List.all_cons, List.all_nil, Bool.and_true, Bool.and_eq_true,
          decide_eq_true_eq]
        exact ⟨a.1, a.2.1, a.2.2.1, a.2.2.2⟩
      rw [if_pos hall] at h
      rw [if_pos (show search.getD 0 0 ≤ 127 ∧ search.getD (0 + 1) 0 ≤ 127 ∧
        search.getD (0 + 2) 0 ≤ 127 ∧ search.getD (0 + 3) 0 ≤ 127 from a)]
      injection h with h
      rw [← h]
      simp [sliceBytes]
    · have hall : ¬ ((List.range 4).all (fun i => search.getD i 0 ≤ 127) = true) := by
        rw [hr4]
        simp only [List.all_cons, List.all_nil, Bool.and_true, Bool.and_eq_true,
          decide_eq_true_eq]
        exact a
      rw [if_neg hall] at h
      by_cases hlen6 : search.length < 6
      · rw [if_pos hlen6] at h; cases h
      · rw [if_neg hlen6] at h
        rw [if_neg (show ¬ (search.getD 0 0 ≤ 127 ∧ search.getD (0 + 1) 0 ≤ 127 ∧
          search.getD (0 + 2) 0 ≤ 127 ∧ search.getD (0 + 3) 0 ≤ 127) from a)]
        rw [if_pos (show 0 + 6 ≤ search.length by omega)]
        injection h with h
        rw [← h]
        simp [sliceBytes]

/-- C6: `list` rejects the 3-character ASCII phrase "abc" as too short,
accepts the 4-character ASCII phrase "abcd" (lookup key "abcd") and the
2-character wide-script phrase 日本 (lookup key = its 6 UTF-8 bytes), and
for every accepted phrase the lookup key equals the first gram of the
normalized phrase under the tokenizer's adaptive-width rule (first 4 bytes
when all ASCII, else first 6 bytes, rejecting when fewer than 6 are
available). -/
theorem list_first_gram :
    (listLookupKey (utf8Str (Normalize [97, 98, 99])) = Except.error 400) ∧
    (listLookupKey (utf8Str (Normalize [97, 98, 99, 100])) = Except.ok [97, 98, 99, 100]) ∧
    (listLookupKey (utf8Str (Normalize [0x65E5, 0x672C])) =
      Except.ok [230, 151, 165, 230, 156, 172]) ∧
    (∀ phrase key, listLookupKey (utf8Str (Normalize phrase)) = Except.ok key →
      scanFrom (utf8Str (Normalize phrase)) 0 7 0 true = some key) :=
  ⟨by decide, by decide, by decide,
   fun _ key h => listLookupKey_first_gram _ key h⟩

/-- C6 witness: the first-gram correspondence instantiated at "abcd". -/
theorem list_first_gram_witness :
    scanFrom (utf8Str (Normalize [97, 98, 99, 100])) 0 7 0 true =
      some [97, 98, 99, 100] :=
  list_first_gram.2.2.2 [97, 98, 99, 100] [97, 98, 99, 100] (by decide)

theorem collectPieces_length_le (pieces : List (Nat × Metadata)) (search : List Nat) :
    ∀ (entries : List PieceIndex) (lastKey : Option Nat) (res : List Metadata),
      collectPieces pieces search lastKey entries = Except.ok res →
      res.length ≤ entries.length := by
  intro entries
  induction entries with
  | nil =>
    intro lastKey res h
    injection h with h
    simp [← h]
  | cons e rest ih =>
    intro lastKey res h
    obtain ⟨eKey, eVal⟩ := e
    cases eVal with
    | int i =>
      simp only [collectPieces] at h
      cases h
    | key k =>
      simp only [collectPieces] at h
      by_cases hl : lastKey = some k
      · rw [if_pos hl] at h
        have := ih lastKey res h
        simp only [List.length_cons]
        omega
      · rw [if_neg hl] at h
        match hlook : List.lookup k pieces with
        | none => rw [hlook] at h; cases h
        | some piece =>
          rw [hlook] at h
          match hrec : collectPieces pieces search (some k) rest with
          | Except.error c => rw [hrec] at h; cases h
          | Except.ok res' =>
            rw [hrec] at h
            injection h with h
            have hlen := ih (some k) res' hrec
            rw [← h]
            by_cases hc : (containsBytes (utf8Str (piece.Title.map lowerChar)) search ||
               containsBytes (utf8Str (piece.Album.map lowerChar)) search ||
               containsBytes (utf8Str (piece.Artist.map lowerChar)) search ||
               containsBytes (utf8Str (piece.AlbumArtist.map lowerChar)) search) = true
            · simp [hc]
              omega
            · rw [Bool.not_eq_true] at hc
              simp [hc]
              omega

theorem parseLimit_400 (ls : List Nat) (hne : ls ≠ [])
    (hbad : atoi ls = none ∨ ∃ l, atoi ls = some l ∧ (l < 0 ∨ 1000 * 1000 < l)) :
    parseLimit ls = Except.error 400 := by
  unfold parseLimit
  rw [if_neg hne]
  rcases hbad with hnone | ⟨l, hl, hrange⟩
  · rw [hnone]
  · rw [hl]
    show (if l < 0 ∨ 1000 * 1000 < l then Except.error 400 else Except.ok l) =
      Except.error (400 : Nat)
    rw [if_pos hrange]

/-- C10: with no `limit` parameter the handler reads at most 10 IndexEntries
and thus returns at most 10 Pieces; a present `limit` must parse as an
integer in `[0, 10^6]`, otherwise the request is rejected with HTTP 400
whatever the store contents — before any Datastore query is issued. -/
theorem list_limit_bound :
    (∀ phrase s res, listHandler phrase [] s = Except.ok res → res.length ≤ 10) ∧
    (∀ phrase ls s, ls ≠ [] →
      (atoi ls = none ∨ ∃ l, atoi ls = some l ∧ (l < 0 ∨ 1000 * 1000 < l)) →
      listHandler phrase ls s = Except.error 400) := by
  constructor
  · intro phrase s res h
    unfold listHandler parseLimit at h
    rw [if_pos rfl] at h
    match hk : listLookupKey (utf8Str (Normalize phrase)) with
    | Except.error c => rw [hk] at h; cases h
    | Except.ok keyBytes =>
      rw [hk] at h
      have := collectPieces_length_le s.pieces (utf8Str (Normalize phrase)) _ none res h
      calc res.length ≤ ((s.index.filter (fun e => e.Key = keyBytes)).take
            (Int.toNat 10)).length := this
        _ ≤ 10 := by simp
  · intro phrase ls s hne hbad
    unfold listHandler
    rw [parseLimit_400 ls hne hbad]

/-- C10 witness: the bound at a concrete empty store and the 400 rejection
for the non-numeric limit "x". -/
theorem list_limit_bound_witness :
    (([] : List Metadata).length ≤ 10) ∧
    listHandler [97] [120] ⟨[], []⟩ = Except.error 400 :=
  ⟨list_limit_bound.1 [97, 98, 99, 100] ⟨[], []⟩ [] (by decide),
   list_limit_bound.2 [97] [120] ⟨[], []⟩ (by decide) (Or.inl (by decide))⟩

/-- The result of `os.Stat` as far as `syncInternal` inspects it. -/
structure FileInfo where
  isDir : Bool
deriving DecidableEq

/-- A `tag.Picture`: raw image bytes plus a MIME type. -/
structure Picture where
  MIMEType : List Nat
  Data : List Nat
deriving DecidableEq

/-- One iteration's environment for the `syncInternal` worker
(`src/cmd/syncer/main.go`): the outcomes of its collaborator calls for one
filename received on the channel. -/
structure SyncEnv where
  /-- Result of `os.Stat(filename)`: `none` models a stat error (`err != nil`,
  `fi = nil`). -/
  stat : Option FileInfo
  /-- Whether `os.Open(filename)` succeeds. -/
  openOk : Bool
  /-- Result of `tag.ReadFrom(file)`: the extracted fields, or `none` on error. -/
  tag : Option Metadata
  /-- Result of `tag.Sum(file)`: the content hash, or `none` on error. -/
  sum : Option Nat
  /-- Result of `m.Picture()`: the embedded album art, if any. -/
  embedded : Option Picture
  /-- Value of `filepath.Dir(file.Name())`. -/
  dirname : List Nat
  /-- Result of `getAlbumArtFromDir(dirname)`: `none` covers both "no art" and an
  error, which is only logged. -/
  dirArt : Option Picture
  /-- Whether `uploadPicture` succeeds against the object store. -/
  uploadOk : Bool
  /-- The collaborator digest `base64.StdEncoding.EncodeToString(sha256.Sum256(data))`
  used as the upload key. -/
  hashOf : List Nat → List Nat
  /-- Value of `file.Name()`, which becomes `Metadata.Path`. -/
  path : List Nat

/-- What one `syncInternal` iteration does with the received filename. -/
inductive SyncOutcome where
  | panic
  | skip
  | processed (md : Metadata)
deriving DecidableEq

/-- The album-art resolution block of `syncInternal`
(`src/cmd/syncer/main.go`): when the file has no embedded picture, consult
the directory-keyed cache, else scan the directory and upload the found art,
recording its hash in the cache under both the directory and the hash
itself; when there is an embedded picture, upload it unless its hash is
already cached.  In both branches `pictureHash` is assigned *before* the
upload is attempted and is not cleared when the upload fails — only the
cache update is skipped. -/
def resolvePicture (env : SyncEnv) (cache : List (List Nat × List Nat)) :
    List Nat × List (List Nat × List Nat) :=
  match env.embedded with
  | none =>
    match List.lookup env.dirname cache with
    | some h => (h, cache)
    | none =>
      match env.dirArt with
      | none => ([], cache)
      | some pic =>
        if env.uploadOk then
          (env.hashOf pic.Data,
           (env.hashOf pic.Data, env.hashOf pic.Data) ::
           (env.dirname, env.hashOf pic.Data) :: cache)
        else (env.hashOf pic.Data, cache)
  | some p =>
    match List.lookup (env.hashOf p.Data) cache with
    | some _ => (env.hashOf p.Data, cache)
    | none =>
      if env.uploadOk then
        (env.hashOf p.Data, (env.hashOf p.Data, env.hashOf p.Data) :: cache)
      else (env.hashOf p.Data, cache)

/-- One iteration of the `syncInternal` worker loop
(`src/cmd/syncer/main.go`).  After a failed `os.Stat` the code logs but has
no `continue`, and immediately calls `fi.IsDir()` on the nil `os.FileInfo`
interface value — a nil dereference that panics the goroutine; the model
records this as `SyncOutcome.panic`.  Every other per-file failure is
logged and skipped with `continue`.  On success the Piece built by
`benten.NewMetadata(m, pictureHash, hash, file.Name())` is handed to
`updateMetadata`. -/
def syncStep (env : SyncEnv) (cache : List (List Nat × List Nat)) :
    SyncOutcome × List (List Nat × List Nat) :=
  match env.stat with
  | none => (SyncOutcome.panic, cache)
  | some fi =>
    if fi.isDir then (SyncOutcome.skip, cache)
    else if !env.openOk then (SyncOutcome.skip, cache)
    else
      match env.tag with
      | none => (SyncOutcome.skip, cache)
      | some tg =>
        match env.sum with
        | none => (SyncOutcome.skip, cache)
        | some hash =>
          match resolvePicture env cache with
          | (pictureHash, cache') =>
            (SyncOutcome.processed
              ⟨tg.Title, tg.Album, tg.Artist, tg.AlbumArtist, tg.Composer,
               hash, pictureHash, env.path⟩, cache')

/-- C3: a path whose `os.Stat` fails (for example, a file deleted between
the watcher event and its processing) panics the `syncInternal` worker
instead of being logged and skipped: the missing `continue` after the stat
error lets `fi.IsDir()` dereference a nil interface, killing the worker
loop for all subsequent paths. -/
theorem syncStep_stat_error_panics :
    (syncStep
      { stat := none, openOk := true, tag := none, sum := none,
        embedded := none, dirname := [], dirArt := none, uploadOk := true,
        hashOf := fun _ => [104], path := [112] } []).1 = SyncOutcome.panic := rfl

/-- C4 counterexample: an album art found in the directory whose upload
fails is still referenced — the sync proceeds and the Piece is persisted
with the computed hash `[104]` in `Picture`, not with an empty reference. -/
theorem syncStep_upload_failure_picture_nonempty :
    (syncStep
      { stat := some ⟨false⟩, openOk := true,
        tag := some ⟨[97, 98, 99, 100], [], [], [], [], 0, [], []⟩, sum := some 9,
        embedded := none, dirname := [100], dirArt := some ⟨[106], [1, 2]⟩,
        uploadOk := false, hashOf := fun _ => [104], path := [112] } []).1 =
      SyncOutcome.processed
        ⟨[97, 98, 99, 100], [], [], [], [], 9, [104], [112]⟩ ∧
    (syncStep
      { stat := some ⟨false⟩, openOk := true,
        tag := some ⟨[97, 98, 99, 100], [], [], [], [], 0, [], []⟩, sum := some 9,
        embedded := none, dirname := [100], dirArt := some ⟨[106], [1, 2]⟩,
        uploadOk := false, hashOf := fun _ => [104], path := [112] } []).2 = [] ∧
    ([104] : List Nat) ≠ [] :=
  ⟨rfl, rfl, by decide⟩

/-- C4 (amended): when an album-art image is found but its upload fails, the
failure is logged, the sync is not aborted — the Piece is still handed to
`updateMetadata` — and the dedup cache is left unrecorded, so a later sync
retries the upload; but the Piece is persisted with the already-computed
content-hash reference in its `Picture` field, not with an empty one.
The first conjunct covers art found by the directory scan, the second an
embedded picture. -/
theorem syncStep_upload_failure_keeps_hash (dirname path : List Nat)
    (cache : List (List Nat × List Nat)) (tg : Metadata) (hash : Nat)
    (hashOf : List Nat → List Nat) (dirArt : Option Picture) :
    (∀ pic, List.lookup dirname cache = none →
      syncStep
        ⟨some ⟨false⟩, true, some tg, some hash, none, dirname, some pic,
         false, hashOf, path⟩ cache =
      (SyncOutcome.processed
        ⟨tg.Title, tg.Album, tg.Artist, tg.AlbumArtist, tg.Composer,
         hash, hashOf pic.Data, path⟩, cache)) ∧
    (∀ pct,
      syncStep
        ⟨some ⟨false⟩, true, some tg, some hash, some pct, dirname, dirArt,
         false, hashOf, path⟩ cache =
      (SyncOutcome.processed
        ⟨tg.Title, tg.Album, tg.Artist, tg.AlbumArtist, tg.Composer,
         hash, hashOf pct.Data, path⟩, cache)) := by
  constructor
  · intro pic hmiss
    simp only [syncStep, resolvePicture, hmiss]
    rfl
  · intro pct
    simp only [syncStep, resolvePicture]
    cases List.lookup (hashOf pct.Data) cache <;> rfl

/-- C4 witness: the amended theorem applied to a concrete environment with
a directory art and a failing upload. -/
theorem syncStep_upload_failure_keeps_hash_witness :
    syncStep
      ⟨some ⟨false⟩, true, some ⟨[116], [], [], [], [], 0, [], []⟩, some 3,
       none, [100], some ⟨[106], [5]⟩, false, fun _ => [104], [112]⟩ [] =
    (SyncOutcome.processed ⟨[116], [], [], [], [], 3, [104], [112]⟩, []) :=
  (syncStep_upload_failure_keeps_hash [100] [112] []
    ⟨[116], [], [], [], [], 0, [], []⟩ 3 (fun _ => [104]) none).1
    ⟨[106], [5]⟩ rfl

/-- An event consumed by the `sync` debouncer loop (`src/cmd/syncer/main.go`):
a watcher filename arriving on the channel, or the empty-string sentinel sent
by the `time.AfterFunc` timer; `now` is the value of `time.Now()` while the
event is processed. -/
inductive DEvent where
  | touch (p : List Nat) (now : Nat)
  | timer (now : Nat)
deriving DecidableEq

/-- The ledger update `filenames[filename] = time.Now()`: replace the entry
when the path is present, append otherwise (Go map assignment). -/
def insertEntry : List (List Nat × Nat) → List Nat → Nat → List (List Nat × Nat)
  | [], p, t => [(p, t)]
  | (q, ts) :: rest, p, t =>
    if q = p then (p, t) :: rest else (q, ts) :: insertEntry rest p t

/-- Go map lookup on the ledger. -/
def lookupPath : List (List Nat × Nat) → List Nat → Option Nat
  | [], _ => none
  | (q, t) :: rest, p => if q = p then some t else lookupPath rest p

/-- The `sync` debouncer state: the `filenames` path → last-touch ledger and
the `isTimerActive` flag. -/
structure DebounceState where
  ledger : List (List Nat × Nat)
  timerActive : Bool

/-- One iteration of the `sync` loop (`src/cmd/syncer/main.go`).  A touch
(non-empty filename) records the current time for the path, and the ledger
being non-empty after it (re-)arms the settle timer.  The timer sentinel
("" sent by `time.AfterFunc(duration*2, ...)`), with `duration = 5` seconds,
clears `isTimerActive`, flushes every entry with
`time.Now().Sub(timestamp) >= duration` to `chInternal`, keeps the younger
entries, and re-arms the timer when entries remain.  The second component
lists the (path, emission time) pairs forwarded downstream. -/
def debounceStep (s : DebounceState) : DEvent → DebounceState × List (List Nat × Nat)
  | DEvent.touch p now =>
    ({ ledger := insertEntry s.ledger p now, timerActive := true }, [])
  | DEvent.timer now =>
    ({ ledger := s.ledger.filter (fun x => ¬ (x.2 + 5 ≤ now)),
       timerActive := !(s.ledger.filter (fun x => ¬ (x.2 + 5 ≤ now))).isEmpty },
     (s.ledger.filter (fun x => x.2 + 5 ≤ now)).map (fun x => (x.1, now)))

/-- Run the debouncer over a list of events, collecting the emissions. -/
def debounceRun (s : DebounceState) : List DEvent → DebounceState × List (List Nat × Nat)
  | [] => (s, [])
  | e :: rest =>
    ((debounceRun (debounceStep s e).1 rest).1,
     (debounceStep s e).2 ++ (debounceRun (debounceStep s e).1 rest).2)

/-- The timestamps of the touches of path `p` in a trace. -/
def touchesOf (p : List Nat) : List DEvent → List Nat
  | [] => []
  | DEvent.touch q t :: rest =>
    if q = p then t :: touchesOf p rest else touchesOf p rest
  | DEvent.timer _ :: rest => touchesOf p rest

theorem lookupPath_insertEntry_ne (q p : List Nat) (t : Nat) (h : q ≠ p) :
    ∀ l : List (List Nat × Nat), lookupPath (insertEntry l q t) p = lookupPath l p := by
  intro l
  induction l with
  | nil => simp [insertEntry, lookupPath, h]
  | cons x rest ih =>
    obtain ⟨r, ts⟩ := x
    by_cases hrq : r = q
    · subst hrq
      simp [insertEntry, lookupPath, h]
    · by_cases hrp : r = p
      · subst hrp
        simp [insertEntry, lookupPath, hrq]
      · simp [insertEntry, lookupPath, hrq, hrp, ih]

theorem lookupPath_none_iff (p : List Nat) :
    ∀ l : List (List Nat × Nat), lookupPath l p = none ↔ ∀ x ∈ l, x.1 ≠ p := by
  intro l
  induction l with
  | nil => simp [lookupPath]
  | cons x rest ih =>
    obtain ⟨q, t⟩ := x
    by_cases hq : q = p
    · subst hq
      simp [lookupPath]
    · simp [lookupPath, hq, ih]

theorem lookupPath_mem (p : List Nat) (T : Nat) :
    ∀ l : List (List Nat × Nat), lookupPath l p = some T → (p, T) ∈ l := by
  intro l
  induction l with
  | nil => intro h; cases h
  | cons x rest ih =>
    obtain ⟨q, t⟩ := x
    intro h
    by_cases hq : q = p
    · subst hq
      simp only [lookupPath, if_pos rfl] at h
      injection h with h
      subst h
      exact List.mem_cons_self _ _
    · simp only [lookupPath, if_neg hq] at h
      exact List.mem_cons_of_mem _ (ih h)

theorem lookupPath_of_nodup_mem (p : List Nat) (T : Nat) :
    ∀ l : List (List Nat × Nat), (l.map Prod.fst).Nodup → (p, T) ∈ l →
      lookupPath l p = some T := by
  intro l
  induction l with
  | nil => intro _ h; cases h
  | cons x rest ih =>
    obtain ⟨q, t⟩ := x
    intro hnod hmem
    simp only [List.map_cons, List.nodup_cons] at hnod
    rcases List.mem_cons.mp hmem with heq | hmem'
    · injection heq with h1 h2
      subst h1
      subst h2
      simp [lookupPath]
    · by_cases hq : q = p
      · subst hq
        exact absurd (List.mem_map_of_mem Prod.fst hmem') hnod.1
      · simp only [lookupPath, if_neg hq]
        exact ih hnod.2 hmem'

theorem filter_key_of_lookup_none (p : List Nat) :
    ∀ l : List (List Nat × Nat), lookupPath l p = none →
      l.filter (fun x => x.1 = p) = [] := by
  intro l
  induction l with
  | nil => intro _; rfl
  | cons x rest ih =>
    obtain ⟨q, t⟩ := x
    intro h
    by_cases hq : q = p
    · subst hq
      simp [lookupPath] at h
    · simp only [lookupPath, if_neg hq] at h
      simp [List.filter_cons, hq, ih h]

theorem filter_key_of_lookup_some (p : List Nat) (T : Nat) :
    ∀ l : List (List Nat × Nat), (l.map Prod.fst).Nodup →
      lookupPath l p = some T → l.filter (fun x => x.1 = p) = [(p, T)] := by
  intro l
  induction l with
  | nil => intro _ h; cases h
  | cons x rest ih =>
    obtain ⟨q, t⟩ := x
    intro hnod h
    simp only [List.map_cons, List.nodup_cons] at hnod
    by_cases hq : q = p
    · simp only [lookupPath, if_pos hq] at h
      injection h with ht
      have hrest : lookupPath rest p = none := by
        rw [lookupPath_none_iff]
        intro x hx hxp
        apply hnod.1
        rw [hq]
        exact hxp ▸ List.mem_map_of_mem Prod.fst hx
      rw [List.filter_cons, if_pos (show (decide ((q, t).1 = p)) = true by simp [hq]),
        filter_key_of_lookup_none p rest hrest, hq, ht]
    · simp only [lookupPath, if_neg hq] at h
      simp [List.filter_cons, hq, ih hnod.2 h]

theorem insertEntry_keys_subset (q : List Nat) (t : Nat) :
    ∀ (l : List (List Nat × Nat)) (x : List Nat),
      x ∈ (insertEntry l q t).map Prod.fst → x = q ∨ x ∈ l.map Prod.fst := by
  intro l
  induction l with
  | nil =>
    intro x hx
    left
    simpa [insertEntry] using hx
  | cons y rest ih =>
    obtain ⟨r, ts⟩ := y
    intro x hx
    by_cases hrq : r = q
    · simp only [insertEntry] at hx
      rw [if_pos hrq, List.map_cons, List.mem_cons] at hx
      rcases hx with hx | hx
      · left; exact hx
      · right
        rw [List.map_cons, List.mem_cons]
        right; exact hx
    · simp only [insertEntry] at hx
      rw [if_neg hrq, List.map_cons, List.mem_cons] at hx
      rcases hx with hx | hx
      · right
        rw [List.map_cons, List.mem_cons]
        left; exact hx
      · rcases ih x hx with hh | hh
        · left; exact hh
        · right
          rw [List.map_cons, List.mem_cons]
          right; exact hh

theorem insertEntry_keys_nodup (q : List Nat) (t : Nat) :
    ∀ l : List (List Nat × Nat), (l.map Prod.fst).Nodup →
      ((insertEntry l q t).map Prod.fst).Nodup := by
  intro l
  induction l with
  | nil => intro _; simp [insertEntry]
  | cons y rest ih =>
    obtain ⟨r, ts⟩ := y
    intro h
    rw [List.map_cons, List.nodup_cons] at h
    by_cases hrq : r = q
    · simp only [insertEntry]
      rw [if_pos hrq, List.map_cons, List.nodup_cons]
      refine ⟨?_, h.2⟩
      rw [← hrq]
      exact h.1
    · simp only [insertEntry]
      rw [if_neg hrq, List.map_cons, List.nodup_cons]
      refine ⟨?_, ih h.2⟩
      intro hmem
      rcases insertEntry_keys_subset q t rest r hmem with hh | hh
      · exact hrq hh
      · exact h.1 hh

theorem emitted_filter (now : Nat) (p : List Nat) :
    ∀ L : List (List Nat × Nat),
      ((L.filter (fun x => x.2 + 5 ≤ now)).map (fun x => (x.1, now))).filter
          (fun e => e.1 = p) =
        ((L.filter (fun x => x.1 = p)).filter (fun x => x.2 + 5 ≤ now)).map
          (fun x => (x.1, now)) := by
  intro L
  induction L with
  | nil => rfl
  | cons x rest ih =>
    obtain ⟨q, t⟩ := x
    by_cases hq : q = p <;> by_cases ht : t + 5 ≤ now <;>
      simp [List.filter_cons, hq, ht, ih]

/-- The debouncer never emits a path it is not tracking, and for a tracked
path with last-touch time `T` it emits at most once, no earlier than `T + 5`,
and exactly once as soon as some timer fires at a time `≥ T + 5` — provided
the path is not touched again in the trace. -/
theorem debounce_master (p : List Nat) :
    ∀ (tr : List DEvent) (s : DebounceState),
      (s.ledger.map Prod.fst).Nodup → touchesOf p tr = [] →
      (lookupPath s.ledger p = none →
        (debounceRun s tr).2.filter (fun e => e.1 = p) = []) ∧
      (∀ T, lookupPath s.ledger p = some T →
        ((debounceRun s tr).2.filter (fun e => e.1 = p)).length ≤ 1 ∧
        (∀ e ∈ (debounceRun s tr).2.filter (fun e => e.1 = p), T + 5 ≤ e.2) ∧
        ((∃ now, DEvent.timer now ∈ tr ∧ T + 5 ≤ now) →
          ((debounceRun s tr).2.filter (fun e => e.1 = p)).length = 1)) := by
  intro tr
  induction tr with
  | nil =>
    intro s _ _
    refine ⟨fun _ => rfl, fun T _ => ⟨by simp [debounceRun], by simp [debounceRun], ?_⟩⟩
    rintro ⟨now, hmem, -⟩
    cases hmem
  | cons e rest ih =>
    intro s hnod htouch
    cases e with
    | touch q t =>
      have hq : q ≠ p := by
        intro hqp
        subst hqp
        simp [touchesOf] at htouch
      have htr : touchesOf p rest = [] := by
        simpa [touchesOf, hq] using htouch
      have hnod' := insertEntry_keys_nodup q t s.ledger hnod
      have hlook := lookupPath_insertEntry_ne q p t hq s.ledger
      have IH := ih ⟨insertEntry s.ledger q t, true⟩ hnod' htr
      simp only [debounceRun, debounceStep, List.nil_append]
      constructor
      · intro h
        exact IH.1 (hlook.trans h)
      · intro T hT
        obtain ⟨h1, h2, h3⟩ := IH.2 T (hlook.trans hT)
        refine ⟨h1, h2, ?_⟩
        rintro ⟨now, hmem, hge⟩
        rcases List.mem_cons.mp hmem with heq | hmem'
        · cases heq
        · exact h3 ⟨now, hmem', hge⟩
    | timer now =>
      have htr : touchesOf p rest = [] := by simpa [touchesOf] using htouch
      have hnod' : ((s.ledger.filter (fun x => ¬ (x.2 + 5 ≤ now))).map Prod.fst).Nodup :=
        List.Nodup.sublist (List.Sublist.map _ (List.filter_sublist _)) hnod
      have IH := ih ⟨s.ledger.filter (fun x => ¬ (x.2 + 5 ≤ now)),
        !(s.ledger.filter (fun x => ¬ (x.2 + 5 ≤ now))).isEmpty⟩ hnod' htr
      simp only [debounceRun, debounceStep, List.filter_append]
      constructor
      · intro hnone
        have hall : ∀ x ∈ s.ledger, x.1 ≠ p := (lookupPath_none_iff p s.ledger).mp hnone
        have hkey : s.ledger.filter (fun x => x.1 = p) = [] :=
          filter_key_of_lookup_none p s.ledger hnone
        have hout : ((s.ledger.filter (fun x => x.2 + 5 ≤ now)).map
            (fun x => (x.1, now))).filter (fun e => e.1 = p) = [] := by
          rw [emitted_filter, hkey]
          rfl
        have hnone' : lookupPath (s.ledger.filter (fun x => ¬ (x.2 + 5 ≤ now))) p = none := by
          rw [lookupPath_none_iff]
          intro x hx
          exact hall x (List.mem_of_mem_filter hx)
        rw [hout, IH.1 hnone', List.append_nil]
      · intro T hT
        have hmemT : (p, T) ∈ s.ledger := lookupPath_mem p T s.ledger hT
        have hkey : s.ledger.filter (fun x => x.1 = p) = [(p, T)] :=
          filter_key_of_lookup_some p T s.ledger hnod hT
        by_cases hdue : T + 5 ≤ now
        · have hout : ((s.ledger.filter (fun x => x.2 + 5 ≤ now)).map
              (fun x => (x.1, now))).filter (fun e => e.1 = p) = [(p, now)] := by
            rw [emitted_filter, hkey]
            simp [List.filter_cons, hdue]
          have hnone' : lookupPath (s.ledger.filter (fun x => ¬ (x.2 + 5 ≤ now))) p = none := by
            rw [lookupPath_none_iff]
            intro x hx hxp
            have hxl : x ∈ s.ledger.filter (fun y => y.1 = p) :=
              List.mem_filter.mpr ⟨List.mem_of_mem_filter hx, by simp [hxp]⟩
            rw [hkey, List.mem_singleton] at hxl
            rw [hxl] at hx
            have hc := (List.mem_filter.mp hx).2
            simp at hc
            omega
          have houts := IH.1 hnone'
          rw [hout, houts]
          refine ⟨by simp, ?_, fun _ => by simp⟩
          intro e he
          simp only [List.append_nil, List.mem_singleton] at he
          rw [he]
          exact hdue
        · have hout : ((s.ledger.filter (fun x => x.2 + 5 ≤ now)).map
              (fun x => (x.1, now))).filter (fun e => e.1 = p) = [] := by
            rw [emitted_filter, hkey]
            simp [List.filter_cons, hdue]
          have hkeep : (p, T) ∈ s.ledger.filter (fun x => ¬ (x.2 + 5 ≤ now)) :=
            List.mem_filter.mpr ⟨hmemT, by simp [hdue]⟩
          have hsome' : lookupPath (s.ledger.filter (fun x => ¬ (x.2 + 5 ≤ now))) p = some T :=
            lookupPath_of_nodup_mem p T _ hnod' hkeep
          obtain ⟨h1, h2, h3⟩ := IH.2 T hsome'
          rw [hout, List.nil_append]
          refine ⟨h1, h2, ?_⟩
          rintro ⟨now', hmem, hge⟩
          rcases List.mem_cons.mp hmem with heq | hmem'
          · injection heq with hn
            subst hn
            exact absurd hge hdue
          · exact h3 ⟨now', hmem', hge⟩

theorem debounceRun_nodup (tr : List DEvent) :
    ∀ s : DebounceState, (s.ledger.map Prod.fst).Nodup →
      (((debounceRun s tr).1).ledger.map Prod.fst).Nodup := by
  induction tr with
  | nil => intro s h; exact h
  | cons e rest ih =>
    intro s h
    simp only [debounceRun]
    apply ih
    cases e with
    | touch p now => exact insertEntry_keys_nodup p now s.ledger h
    | timer now =>
      exact List.Nodup.sublist (List.Sublist.map _ (List.filter_sublist _)) h

theorem debounceRun_append (tr1 tr2 : List DEvent) :
    ∀ s, debounceRun s (tr1 ++ tr2) =
      ((debounceRun (debounceRun s tr1).1 tr2).1,
       (debounceRun s tr1).2 ++ (debounceRun (debounceRun s tr1).1 tr2).2) := by
  induction tr1 with
  | nil => intro s; simp [debounceRun]
  | cons e rest ih =>
    intro s
    simp only [List.cons_append, debounceRun, List.append_eq, ih, List.append_assoc]

theorem debounceRun_touches_from (p : List Nat) :
    ∀ (ts : List Nat) (tlast t0 : Nat),
      debounceRun ⟨[(p, t0)], true⟩ ((ts ++ [tlast]).map (fun t => DEvent.touch p t)) =
        (⟨[(p, tlast)], true⟩, []) := by
  intro ts
  induction ts with
  | nil =>
    intro tlast t0
    simp [debounceRun, debounceStep, insertEntry]
  | cons t ts' ih =>
    intro tlast t0
    simp only [List.cons_append, List.map_cons, debounceRun, debounceStep, List.append_eq]
    rw [show insertEntry [(p, t0)] p t = [(p, t)] by simp [insertEntry], ih tlast t]
    simp

theorem debounceRun_burst (p : List Nat) (ts : List Nat) (tlast : Nat) :
    debounceRun ⟨[], false⟩ ((ts ++ [tlast]).map (fun t => DEvent.touch p t)) =
      (⟨[(p, tlast)], true⟩, []) := by
  cases ts with
  | nil => simp [debounceRun, debounceStep, insertEntry]
  | cons t ts' =>
    simp only [List.cons_append, List.map_cons, debounceRun, debounceStep, List.append_eq]
    rw [show insertEntry ([] : List (List Nat × Nat)) p t = [(p, t)] from rfl,
      debounceRun_touches_from p ts' tlast t]
    simp

/-- C5: the ledger never holds two pending timestamps for one path; and for
a path touched any number of times (the burst `ts ++ [tlast]`, last touch at
`tlast`) and then left untouched, every settled event `sync` forwards for it
is timestamped no earlier than 5 seconds after the last touch, at most one
such event is forwarded, and exactly one as soon as a settle timer fires at
least 5 seconds after the last touch. -/
theorem debounce_single_flight :
    (∀ tr : List DEvent, ((debounceRun ⟨[], false⟩ tr).1.ledger.map Prod.fst).Nodup) ∧
    (∀ (p : List Nat) (ts : List Nat) (tlast : Nat) (tr2 : List DEvent),
      touchesOf p tr2 = [] →
      (((debounceRun ⟨[], false⟩
          ((ts ++ [tlast]).map (fun t => DEvent.touch p t) ++ tr2)).2.filter
            (fun e => e.1 = p)).length ≤ 1 ∧
       (∀ e ∈ (debounceRun ⟨[], false⟩
          ((ts ++ [tlast]).map (fun t => DEvent.touch p t) ++ tr2)).2.filter
            (fun e => e.1 = p), tlast + 5 ≤ e.2) ∧
       ((∃ now, DEvent.timer now ∈ tr2 ∧ tlast + 5 ≤ now) →
        ((debounceRun ⟨[], false⟩
          ((ts ++ [tlast]).map (fun t => DEvent.touch p t) ++ tr2)).2.filter
            (fun e => e.1 = p)).length = 1))) := by
  constructor
  · intro tr
    exact debounceRun_nodup tr ⟨[], false⟩ (by simp)
  · intro p ts tlast tr2 htouch
    rw [debounceRun_append, debounceRun_burst]
    have hm := (debounce_master p tr2 ⟨[(p, tlast)], true⟩ (by simp) htouch).2 tlast
      (by simp [lookupPath])
    simpa using hm

/-- C5 witness: three touches of a path at times 0, 1, 2 (within 2 seconds)
followed by the settle timer firing at time 10 — armed at the first touch
for `2 × 5` seconds later — produce exactly one settled event for the
path. -/
theorem debounce_single_flight_witness :
    ((debounceRun ⟨[], false⟩
        (([0, 1] ++ [2]).map (fun t => DEvent.touch [112] t) ++
          [DEvent.timer 10])).2.filter (fun e => e.1 = [112])).length = 1 :=
  (debounce_single_flight.2 [112] [0, 1] 2 [DEvent.timer 10] rfl).2.2
    ⟨10, by simp, by omega⟩

end Benten
